import Mathlib

/-!
Verification development for the repository-statistics generator
(`repo_stats.py`) and its chart visualizer (`stats_visualizer.py`).

Python dictionaries built by repeated increment (`defaultdict(int)`,
`Counter`) are modelled as association lists in insertion order; the
`bump` operation increments an existing key in place or appends a fresh
key with count 1, exactly as `d[k] += 1` does on a `defaultdict(int)`.
-/

/-- `d[k] += 1` on a `defaultdict(int)`: increment the value of `k` if the
key is present (keeping its position), otherwise append `(k, 1)`. -/
def bump (m : List (String × Nat)) (k : String) : List (String × Nat) :=
  match m with
  | [] => [(k, 1)]
  | (k0, v) :: rest => if k0 = k then (k0, v + 1) :: rest else (k0, v) :: bump rest k

/-- Dictionary lookup with default 0 (the read semantics of `defaultdict(int)`
and of `Counter`). -/
def lookup0 (m : List (String × Nat)) (k : String) : Nat :=
  match m with
  | [] => 0
  | (k0, v) :: rest => if k0 = k then v else lookup0 rest k

/-- `sum(d.values())`. -/
def sumVals (m : List (String × Nat)) : Nat :=
  (m.map Prod.snd).sum

/-- `d[k] = v` on a plain `dict`: overwrite in place if the key is present,
otherwise append. -/
def dinsert (m : List (String × Nat)) (k : String) (v : Nat) : List (String × Nat) :=
  match m with
  | [] => [(k, v)]
  | (k0, v0) :: rest => if k0 = k then (k0, v) :: rest else (k0, v0) :: dinsert rest k v

/-- A parsed commit record: the `commit.author.date` ISO timestamp and the
`commit.author.name` author name of one commit payload. -/
structure Commit where
  date : String
  name : String
deriving DecidableEq, Repr

/-- A contributor record `{login, contributions}`. -/
structure Contributor where
  login : String
  contributions : Nat
deriving DecidableEq, Repr

/-- The statistics report assembled by `RepoAnalyzer.generate_report`. -/
structure Report where
  repository : String
  analysisPeriodDays : Nat
  totalCommits : Nat
  commitFrequency : List (String × Nat)
  authors : List (String × Nat)
  fileTypes : List (String × Nat)
  contributors : List Contributor
deriving DecidableEq, Repr

/-- The `commit_dates` accumulation loop of `generate_report`:
`commit_dates[commit["commit"]["author"]["date"][:10]] += 1` over the list. -/
def commit_dates (commits : List Commit) : List (String × Nat) :=
  commits.foldl (fun m c => bump m (c.date.take 10)) []

/-- The `authors` accumulation loop of `generate_report`:
`authors[commit["commit"]["author"]["name"]] += 1` over the list. -/
def commitAuthors (commits : List Commit) : List (String × Nat) :=
  commits.foldl (fun m c => bump m c.name) []

/-- `RepoAnalyzer.generate_report`: assembles the report dictionary from the
fetched commits, file-type counter and contributor list (the three fetches
are passed in as arguments; the network is external to the model). -/
def generate_report (repo : String) (days : Nat) (commits : List Commit)
    (fileTypes : List (String × Nat)) (contribs : List Contributor) : Report :=
  { repository := repo
    analysisPeriodDays := days
    totalCommits := commits.length
    commitFrequency := commit_dates commits
    authors := commitAuthors commits
    fileTypes := fileTypes
    contributors := contribs.take 10 }

/-- The `author` object inside the raw `commit` payload; either nested field
may be absent (a missing JSON key). -/
structure RawAuthor where
  date : Option String
  name : Option String
deriving DecidableEq, Repr

/-- The raw `commit` object of one commit payload. -/
structure RawCommitInfo where
  author : Option RawAuthor
deriving DecidableEq, Repr

/-- One raw commit payload as returned by the listing endpoint. -/
structure RawCommit where
  commit : Option RawCommitInfo
deriving DecidableEq, Repr

/-- The chained lookups `commit["commit"]["author"]["date"]` /
`["name"]` performed by `generate_report` on one record: `none` models the
`KeyError` raised when a key is absent. -/
def extractCommit (rc : RawCommit) : Option Commit :=
  match rc.commit with
  | none => none
  | some info =>
    match info.author with
    | none => none
    | some a =>
      match a.date, a.name with
      | some d, some n => some ⟨d, n⟩
      | _, _ => none

/-- The `for commit in commits` loop of `generate_report` viewed as a parser:
it fails (propagating the `KeyError`) as soon as one record lacks a required
nested field, and otherwise yields the parsed records in order. -/
def parseCommits : List RawCommit → Option (List Commit)
  | [] => some []
  | rc :: rest =>
    match extractCommit rc, parseCommits rest with
    | some c, some cs => some (c :: cs)
    | _, _ => none

/-- `generate_report` on raw payloads: `none` models the run aborting with a
`KeyError`; `some` is the assembled report. -/
def generate_report_raw (repo : String) (days : Nat) (raw : List RawCommit)
    (fileTypes : List (String × Nat)) (contribs : List Contributor) : Option Report :=
  (parseCommits raw).map (fun cs => generate_report repo days cs fileTypes contribs)

/-- A raw record carrying both `commit.author.date` and `commit.author.name`. -/
def wellFormedRaw (rc : RawCommit) : Prop :=
  ∃ info a d n, rc.commit = some info ∧ info.author = some a ∧
    a.date = some d ∧ a.name = some n

/-- One HTTP page response of the commit listing endpoint: the status code
and the decoded JSON item array. -/
structure PageResponse (α : Type) where
  status : Nat
  items : List α
deriving DecidableEq, Repr

/-- The `while True` pagination loop of `RepoAnalyzer.get_commits`, with the
network abstracted as `oracle : page index → response`.  Returns the
accumulated items together with the list of page indices requested, in
request order.  `fuel` bounds the recursion; every theorem below supplies
enough fuel for the loop to reach its own stop condition untouched. -/
def fetchPages {α : Type} (oracle : Nat → PageResponse α) :
    Nat → Nat → List α → List α × List Nat
  | 0, _, acc => (acc, [])
  | fuel + 1, page, acc =>
    let r := oracle page
    if r.status ≠ 200 then
      (acc, [page])
    else if r.items.isEmpty then
      (acc, [page])
    else if r.items.length < 100 then
      (acc ++ r.items, [page])
    else
      let next := fetchPages oracle fuel (page + 1) (acc ++ r.items)
      (next.1, page :: next.2)

/-- `RepoAnalyzer.get_commits`: run the pagination loop from page 1 with an
empty accumulator (`per_page` is fixed at 100 in the request parameters). -/
def get_commits {α : Type} (oracle : Nat → PageResponse α) (fuel : Nat) :
    List α × List Nat :=
  fetchPages oracle fuel 1 []

/-- The 3-page fixture of the spec: 100, 100 and 37 items, all successful. -/
def pageFixture : Nat → PageResponse Nat := fun p =>
  if p = 1 then ⟨200, List.range 100⟩
  else if p = 2 then ⟨200, (List.range 100).map (fun i => i + 100)⟩
  else if p = 3 then ⟨200, (List.range 37).map (fun i => i + 200)⟩
  else ⟨200, []⟩

/-- A fixture whose first page succeeds with 100 items and whose second page
fails with a 403 status. -/
def pageFixtureFail : Nat → PageResponse Nat := fun p =>
  if p = 1 then ⟨200, List.range 100⟩ else ⟨403, []⟩

/-- Lexicographic comparison of char lists by code point: the semantics of
Python's `<` on strings (a proper initial segment is smaller). -/
def lexLt : List Char → List Char → Bool
  | [], [] => false
  | [], _ :: _ => true
  | _ :: _, [] => false
  | a :: as, b :: bs => if a < b then true else if b < a then false else lexLt as bs

/-- Python string comparison `a < b`. -/
def strLt (a b : String) : Bool := lexLt a.data b.data

/-- Insert one `(date, count)` pair into an ascending run, keeping ties in
their original order (the stability contract of Python's `sorted`). -/
def insDate (x : String × Nat) : List (String × Nat) → List (String × Nat)
  | [] => [x]
  | y :: ys => if strLt y.1 x.1 then y :: insDate x ys else x :: y :: ys

/-- `sorted(zip(dates, counts), key=lambda x: x[0])` of
`generate_commit_frequency_chart`: a stable sort ascending by the date key. -/
def sortDates : List (String × Nat) → List (String × Nat)
  | [] => []
  | x :: xs => insDate x (sortDates xs)

/-- Insert into a descending run by the `Nat` key `k`, keeping ties in their
original order (stability of Python's `list.sort(..., reverse=True)`). -/
def insDescBy {α : Type} (k : α → Nat) (x : α) : List α → List α
  | [] => [x]
  | y :: ys => if k x < k y then y :: insDescBy k x ys else x :: y :: ys

/-- Stable sort descending by the `Nat` key `k`: the semantics of Python's
`list.sort(key=..., reverse=True)` and `sorted(..., key=..., reverse=True)`. -/
def sortDescBy {α : Type} (k : α → Nat) : List α → List α
  | [] => []
  | x :: xs => insDescBy k x (sortDescBy k xs)

/-- `contributors.sort(key=lambda x: x["contributions"], reverse=True)`. -/
def sortContribDesc (l : List Contributor) : List Contributor :=
  sortDescBy (fun c => c.contributions) l

/-- The threshold test of `generate_file_types_chart`:
`count >= threshold` with `threshold = total_files * 0.02`, stated exactly
over the rationals as `2 * total ≤ 100 * count`. -/
def keepThreshold (total : Nat) (p : String × Nat) : Bool :=
  decide (2 * total ≤ 100 * p.2)

/-- One step of the grouping loop of `generate_file_types_chart`: a kept
category is written into the `grouped_types` dict, a small one is added to
`other_count`. -/
def groupStep (total : Nat) (st : List (String × Nat) × Nat)
    (p : String × Nat) : List (String × Nat) × Nat :=
  if 2 * total ≤ 100 * p.2 then (dinsert st.1 p.1 p.2, st.2) else (st.1, st.2 + p.2)

/-- The categorical grouping of `generate_file_types_chart`: iterate over the
`file_types` mapping accumulating `grouped_types` and `other_count`, then add
the `"Other"` bucket when its count is positive. -/
def groupedTypes (ft : List (String × Nat)) : List (String × Nat) :=
  let total := sumVals ft
  let st := ft.foldl (groupStep total) ([], 0)
  if 0 < st.2 then dinsert st.1 "Other" st.2 else st.1

/-- `StatsVisualizer.generate_commit_frequency_chart`: returns the (possibly
updated) stats document together with the chart series it renders. -/
def generate_commit_frequency_chart (r : Report) : Report × List (String × Nat) :=
  (r, sortDates r.commitFrequency)

/-- `StatsVisualizer.generate_file_types_chart`. -/
def generate_file_types_chart (r : Report) : Report × List (String × Nat) :=
  (r, groupedTypes r.fileTypes)

/-- `StatsVisualizer.generate_contributors_chart`: `contributors.sort(...)`
mutates the list held by the stats document in place, so the returned
document carries the sorted list; the series is the top 10 of it. -/
def generate_contributors_chart (r : Report) : Report × List (String × Nat) :=
  ({ r with contributors := sortContribDesc r.contributors },
   ((sortContribDesc r.contributors).take 10).map (fun c => (c.login, c.contributions)))

/-- `StatsVisualizer.generate_authors_activity_chart`: `sorted(...)` builds a
new list, the document is untouched; the series is the top 8. -/
def generate_authors_activity_chart (r : Report) : Report × List (String × Nat) :=
  (r, (sortDescBy (fun p => p.2) r.authors).take 8)

/-- A concrete report whose contributors list is not sorted descending. -/
def reportA : Report :=
  { repository := "o/r"
    analysisPeriodDays := 30
    totalCommits := 2
    commitFrequency := [("2024-01-01", 2)]
    authors := [("alice", 2)]
    fileTypes := [("py", 3)]
    contributors := [⟨"a", 1⟩, ⟨"b", 5⟩] }

/-- Fifteen contributors with equal contribution counts: ties make the
stable sort order-sensitive. -/
def tiedContribs : List Contributor :=
  [⟨"u01", 7⟩, ⟨"u02", 7⟩, ⟨"u03", 7⟩, ⟨"u04", 7⟩, ⟨"u05", 7⟩,
   ⟨"u06", 7⟩, ⟨"u07", 7⟩, ⟨"u08", 7⟩, ⟨"u09", 7⟩, ⟨"u10", 7⟩,
   ⟨"u11", 7⟩, ⟨"u12", 7⟩, ⟨"u13", 7⟩, ⟨"u14", 7⟩, ⟨"u15", 7⟩]

/-- The final component of a POSIX path: the characters after the last
separator (`p[sepIndex+1:]` for `sepIndex = p.rfind(sep)`). -/
def lastComp (p : List Char) : List Char :=
  (p.reverse.takeWhile (fun c => decide (c ≠ '/'))).reverse

/-- The characters after the last dot (`p[dotIndex+1:]`). -/
def afterLastDot (b : List Char) : List Char :=
  (b.reverse.takeWhile (fun c => decide (c ≠ '.'))).reverse

/-- The characters before the last dot (`p[:dotIndex]`). -/
def beforeLastDot (b : List Char) : List Char :=
  ((b.reverse.dropWhile (fun c => decide (c ≠ '.'))).drop 1).reverse

/-- `os.path.splitext(b)[1]` on the final component `b`: the extension with
its leading dot, present exactly when `b` has a dot preceded by at least one
non-dot character (CPython skips over leading dots, so dotfiles such as
`.gitignore` get an empty extension). -/
def splitextExt (b : List Char) : List Char :=
  if ('.' ∈ b) ∧ (beforeLastDot b).any (fun c => decide (c ≠ '.')) then
    '.' :: afterLastDot b
  else []

/-- The extension pipeline of `get_file_types` on the final component:
`os.path.splitext(f)[1][1:].lower() or "no_extension"`. -/
def extCore (b : List Char) : String :=
  let e := ((splitextExt b).drop 1).map Char.toLower
  if e.isEmpty then "no_extension" else String.mk e

/-- The extension token the code derives for a full path. -/
def extToken (p : String) : String :=
  extCore (lastComp p.data)

/-- Modelled from the claim wording of C4: the lower-cased substring after
the last dot of the path's final component, defaulting to `"no_extension"`
when the final component has no dot. -/
def claimedExtOfC4 (p : String) : String :=
  let b := lastComp p.data
  if '.' ∈ b then String.mk ((afterLastDot b).map Char.toLower)
  else "no_extension"

/-- One entry of the `git/trees` response. -/
structure TreeEntry where
  path : String
  type : String
deriving DecidableEq, Repr

/-- The list comprehension of `get_file_types`: paths of the entries whose
`type` is `"blob"`. -/
def blobPaths (tree : List TreeEntry) : List String :=
  (tree.filter (fun e => decide (e.type = "blob"))).map (fun e => e.path)

/-- The `extensions` list of `get_file_types`. -/
def extensionsOf (tree : List TreeEntry) : List String :=
  (blobPaths tree).map extToken

/-- `Counter(extensions)`: counts keyed in first-occurrence order. -/
def counterOf (xs : List String) : List (String × Nat) :=
  xs.foldl bump []

/-- The `git/trees` response consumed by `get_file_types`. -/
structure TreeResponse where
  status : Nat
  tree : List TreeEntry
deriving DecidableEq, Repr

/-- The contributors response consumed by `get_contributors`. -/
structure ContribResponse where
  status : Nat
  body : List Contributor
deriving DecidableEq, Repr

/-- `RepoAnalyzer.get_file_types`: returns an empty `Counter()` on any
non-200 status, otherwise counts the lower-cased extensions of blob paths. -/
def get_file_types (r : TreeResponse) : List (String × Nat) :=
  if r.status ≠ 200 then [] else counterOf (extensionsOf r.tree)

/-- `RepoAnalyzer.get_contributors`: returns `[]` on any non-200 status,
otherwise the decoded contributor list. -/
def get_contributors (r : ContribResponse) : List Contributor :=
  if r.status ≠ 200 then [] else r.body

theorem sumVals_bump (m : List (String × Nat)) (k : String) :
    sumVals (bump m k) = sumVals m + 1 := by
  induction m with
  | nil => simp [bump, sumVals]
  | cons p rest ih =>
    obtain ⟨k0, v⟩ := p
    by_cases h : k0 = k
    · simp [bump, h, sumVals]
      omega
    · simp [bump, h, sumVals] at ih ⊢
      omega

theorem sumVals_fold_bump (key : Commit → String) :
    ∀ (cs : List Commit) (m : List (String × Nat)),
      sumVals (cs.foldl (fun m c => bump m (key c)) m) = sumVals m + cs.length := by
  intro cs
  induction cs with
  | nil => simp
  | cons c rest ih =>
    intro m
    simp only [List.foldl_cons, List.length_cons]
    rw [ih, sumVals_bump]
    omega

/-- C1: for every commit record list (and any file-type / contributor data),
the report of `generate_report` satisfies
`sum(commit_frequency.values()) = total_commits = sum(authors.values())`. -/
theorem c1_report_sums (repo : String) (days : Nat) (commits : List Commit)
    (fileTypes : List (String × Nat)) (contribs : List Contributor) :
    sumVals (generate_report repo days commits fileTypes contribs).commitFrequency =
      (generate_report repo days commits fileTypes contribs).totalCommits ∧
    (generate_report repo days commits fileTypes contribs).totalCommits =
      sumVals (generate_report repo days commits fileTypes contribs).authors := by
  refine ⟨?_, ?_⟩
  · show sumVals (commit_dates commits) = commits.length
    rw [commit_dates, sumVals_fold_bump]
    simp [sumVals]
  · show commits.length = sumVals (commitAuthors commits)
    rw [commitAuthors, sumVals_fold_bump]
    simp [sumVals]

theorem lookup0_bump (m : List (String × Nat)) (k0 k : String) :
    lookup0 (bump m k0) k = lookup0 m k + (if k0 = k then 1 else 0) := by
  induction m with
  | nil =>
    by_cases h : k0 = k <;> simp [bump, lookup0, h]
  | cons p rest ih =>
    obtain ⟨k1, v⟩ := p
    by_cases h1 : k1 = k0
    · subst h1
      by_cases h2 : k1 = k <;> simp [bump, lookup0, h2]
    · by_cases h2 : k1 = k
      · subst h2
        have : ¬ k0 = k1 := fun h => h1 h.symm
        simp [bump, h1, lookup0, this]
      · simp [bump, h1, lookup0, h2, ih]

theorem lookup0_fold_bump (key : Commit → String) :
    ∀ (cs : List Commit) (m : List (String × Nat)) (k : String),
      lookup0 (cs.foldl (fun m c => bump m (key c)) m) k =
        lookup0 m k + cs.countP (fun c => decide (key c = k)) := by
  intro cs
  induction cs with
  | nil => simp
  | cons c rest ih =>
    intro m k
    simp only [List.foldl_cons, List.countP_cons]
    rw [ih, lookup0_bump]
    by_cases h : key c = k <;> simp [h] <;> omega

/-- C9: aggregation is order-independent: permuting the commit list leaves the
`commit_frequency` mapping, the `authors` mapping (as mappings, i.e. pointwise
under lookup) and `total_commits` unchanged. -/
theorem c9_aggregation_perm_invariant (repo : String) (days : Nat)
    (fileTypes : List (String × Nat)) (contribs : List Contributor)
    (cs cs' : List Commit) (hp : cs'.Perm cs) :
    (∀ d, lookup0 ((generate_report repo days cs' fileTypes contribs).commitFrequency) d =
        lookup0 ((generate_report repo days cs fileTypes contribs).commitFrequency) d) ∧
    (∀ a, lookup0 ((generate_report repo days cs' fileTypes contribs).authors) a =
        lookup0 ((generate_report repo days cs fileTypes contribs).authors) a) ∧
    (generate_report repo days cs' fileTypes contribs).totalCommits =
      (generate_report repo days cs fileTypes contribs).totalCommits := by
  refine ⟨?_, ?_, ?_⟩
  · intro d
    show lookup0 (commit_dates cs') d = lookup0 (commit_dates cs) d
    rw [commit_dates, commit_dates, lookup0_fold_bump, lookup0_fold_bump,
      hp.countP_eq]
  · intro a
    show lookup0 (commitAuthors cs') a = lookup0 (commitAuthors cs) a
    rw [commitAuthors, commitAuthors, lookup0_fold_bump, lookup0_fold_bump,
      hp.countP_eq]
  · exact hp.length_eq

/-- Witness for C9 at a concrete input: a two-commit list and its reversal. -/
theorem c9_aggregation_perm_invariant_witness :
    lookup0 ((generate_report "o/r" 30
        [⟨"2024-01-02T09:00:00Z", "bob"⟩, ⟨"2024-01-01T10:00:00Z", "alice"⟩]
        [] []).commitFrequency) "2024-01-01" =
      lookup0 ((generate_report "o/r" 30
        [⟨"2024-01-01T10:00:00Z", "alice"⟩, ⟨"2024-01-02T09:00:00Z", "bob"⟩]
        [] []).commitFrequency) "2024-01-01" ∧
    lookup0 ((generate_report "o/r" 30
        [⟨"2024-01-02T09:00:00Z", "bob"⟩, ⟨"2024-01-01T10:00:00Z", "alice"⟩]
        [] []).authors) "alice" =
      lookup0 ((generate_report "o/r" 30
        [⟨"2024-01-01T10:00:00Z", "alice"⟩, ⟨"2024-01-02T09:00:00Z", "bob"⟩]
        [] []).authors) "alice" := by
  have h := c9_aggregation_perm_invariant "o/r" 30 [] []
    [⟨"2024-01-01T10:00:00Z", "alice"⟩, ⟨"2024-01-02T09:00:00Z", "bob"⟩]
    [⟨"2024-01-02T09:00:00Z", "bob"⟩, ⟨"2024-01-01T10:00:00Z", "alice"⟩]
    (List.Perm.swap _ _ [])
  exact ⟨h.1 "2024-01-01", h.2.1 "alice"⟩

theorem extractCommit_of_wellFormed (rc : RawCommit) (h : wellFormedRaw rc) :
    ∃ c, extractCommit rc = some c := by
  obtain ⟨info, a, d, n, h1, h2, h3, h4⟩ := h
  exact ⟨⟨d, n⟩, by simp [extractCommit, h1, h2, h3, h4]⟩

theorem extractCommit_of_not_wellFormed (rc : RawCommit) (h : ¬ wellFormedRaw rc) :
    extractCommit rc = none := by
  cases h1 : rc.commit with
  | none => simp [extractCommit, h1]
  | some info =>
    cases h2 : info.author with
    | none => simp [extractCommit, h1, h2]
    | some a =>
      cases h3 : a.date with
      | none => simp [extractCommit, h1, h2, h3]
      | some d =>
        cases h4 : a.name with
        | none => simp [extractCommit, h1, h2, h3, h4]
        | some n =>
          exact absurd ⟨info, a, d, n, h1, h2, h3, h4⟩ h

/-- C10: `generate_report` succeeds (no key lookup fails) precisely when every
raw record carries both `commit.author.date` and `commit.author.name`; one
malformed record makes the whole run fail with a missing-key error instead of
being skipped. -/
theorem c10_wellformed_total (repo : String) (days : Nat)
    (fileTypes : List (String × Nat)) (contribs : List Contributor)
    (raw : List RawCommit) :
    ((∀ rc ∈ raw, wellFormedRaw rc) →
      ∃ rep, generate_report_raw repo days raw fileTypes contribs = some rep) ∧
    ((∃ rc ∈ raw, ¬ wellFormedRaw rc) →
      generate_report_raw repo days raw fileTypes contribs = none) := by
  constructor
  · intro hall
    suffices h : ∃ cs, parseCommits raw = some cs by
      obtain ⟨cs, hcs⟩ := h
      exact ⟨generate_report repo days cs fileTypes contribs, by simp [generate_report_raw, hcs]⟩
    induction raw with
    | nil => exact ⟨[], rfl⟩
    | cons rc rest ih =>
      obtain ⟨c, hc⟩ := extractCommit_of_wellFormed rc (hall rc (by simp))
      obtain ⟨cs, hcs⟩ := ih (fun r hr => hall r (by simp [hr]))
      exact ⟨c :: cs, by simp [parseCommits, hc, hcs]⟩
  · intro hbad
    suffices h : parseCommits raw = none by simp [generate_report_raw, h]
    induction raw with
    | nil => simp at hbad
    | cons rc rest ih =>
      rcases hbad with ⟨r, hr, hnw⟩
      rcases List.mem_cons.mp hr with heq | hmem
      · subst heq
        simp [parseCommits, extractCommit_of_not_wellFormed r hnw]
      · have hrest := ih ⟨r, hmem, hnw⟩
        cases hx : extractCommit rc <;> simp [parseCommits, hx, hrest]

/-- Witness for C10 at concrete inputs: a fully well-formed single-record list
produces a report, and a record whose author lacks `name` makes the run fail. -/
theorem c10_wellformed_total_witness :
    (∃ rep, generate_report_raw "o/r" 30
      [⟨some ⟨some ⟨some "2024-01-01T10:00:00Z", some "alice"⟩⟩⟩] [] [] = some rep) ∧
    generate_report_raw "o/r" 30
      [⟨some ⟨some ⟨some "2024-01-01T10:00:00Z", none⟩⟩⟩] [] [] = none := by
  constructor
  · exact (c10_wellformed_total "o/r" 30 [] []
      [⟨some ⟨some ⟨some "2024-01-01T10:00:00Z", some "alice"⟩⟩⟩]).1
      (by
        intro rc hrc
        simp only [List.mem_singleton] at hrc
        subst hrc
        exact ⟨_, _, _, _, rfl, rfl, rfl, rfl⟩)
  · exact (c10_wellformed_total "o/r" 30 [] []
      [⟨some ⟨some ⟨some "2024-01-01T10:00:00Z", none⟩⟩⟩]).2
      ⟨⟨some ⟨some ⟨some "2024-01-01T10:00:00Z", none⟩⟩⟩, List.mem_singleton.mpr rfl, by
        rintro ⟨info, a, d, n, h1, h2, h3, h4⟩
        simp only [Option.some.injEq] at h1
        subst h1
        simp only [Option.some.injEq] at h2
        subst h2
        simp at h4⟩

theorem fetchPages_fail {α : Type} (oracle : Nat → PageResponse α)
    (fuel page : Nat) (acc : List α) (h : (oracle page).status ≠ 200) :
    fetchPages oracle (fuel + 1) page acc = (acc, [page]) := by
  simp [fetchPages, h]

theorem fetchPages_last {α : Type} (oracle : Nat → PageResponse α)
    (fuel page : Nat) (acc : List α) (h200 : (oracle page).status = 200)
    (hshort : (oracle page).items.length < 100) :
    fetchPages oracle (fuel + 1) page acc = (acc ++ (oracle page).items, [page]) := by
  cases he : (oracle page).items with
  | nil => simp [fetchPages, h200, he]
  | cons x xs =>
    have : ¬ (oracle page).items.isEmpty := by simp [he]
    simp only [fetchPages, h200]
    rw [if_neg (by simp), if_neg (by simp [he]), if_pos hshort]
    rw [he]

theorem fetchPages_full {α : Type} (oracle : Nat → PageResponse α)
    (fuel page : Nat) (acc : List α) (h200 : (oracle page).status = 200)
    (h100 : (oracle page).items.length = 100) :
    fetchPages oracle (fuel + 1) page acc =
      ((fetchPages oracle fuel (page + 1) (acc ++ (oracle page).items)).1,
       page :: (fetchPages oracle fuel (page + 1) (acc ++ (oracle page).items)).2) := by
  have hne : ¬ (oracle page).items.isEmpty := by
    cases he : (oracle page).items with
    | nil => rw [he] at h100; simp at h100
    | cons x xs => simp [he]
  simp only [fetchPages, h200]
  rw [if_neg (by simp), if_neg (by simpa using hne), if_neg (by omega)]

theorem fetchPages_run {α : Type} (oracle : Nat → PageResponse α) :
    ∀ (n fuel page : Nat) (acc : List α), n < fuel →
      (∀ i, i < n → (oracle (page + i)).status = 200 ∧
        (oracle (page + i)).items.length = 100) →
      (oracle (page + n)).status = 200 →
      (oracle (page + n)).items.length < 100 →
      fetchPages oracle fuel page acc =
        (acc ++ ((List.range (n + 1)).map (fun i => (oracle (page + i)).items)).flatten,
         List.range' page (n + 1)) := by
  intro n
  induction n with
  | zero =>
    intro fuel page acc hfuel _ hlast hshort
    obtain ⟨f, rfl⟩ : ∃ f, fuel = f + 1 := ⟨fuel - 1, by omega⟩
    rw [fetchPages_last oracle f page acc (by simpa using hlast) (by simpa using hshort)]
    simp [List.range'_succ, List.range_succ]
  | succ n ih =>
    intro fuel page acc hfuel hfull hlast hshort
    obtain ⟨f, rfl⟩ : ∃ f, fuel = f + 1 := ⟨fuel - 1, by omega⟩
    have h0 := hfull 0 (by omega)
    simp only [Nat.add_zero] at h0
    rw [fetchPages_full oracle f page acc h0.1 h0.2]
    have hshift : ∀ i, i < n → (oracle (page + 1 + i)).status = 200 ∧
        (oracle (page + 1 + i)).items.length = 100 := by
      intro i hi
      have := hfull (i + 1) (by omega)
      rwa [show page + (i + 1) = page + 1 + i by omega] at this
    have hl : (oracle (page + 1 + n)).status = 200 := by
      rwa [show page + 1 + n = page + (n + 1) by omega]
    have hs : (oracle (page + 1 + n)).items.length < 100 := by
      rwa [show page + 1 + n = page + (n + 1) by omega]
    rw [ih f (page + 1) (acc ++ (oracle page).items) (by omega) hshift hl hs]
    have hmap : (List.range (n + 1)).map ((fun i => (oracle (page + i)).items) ∘ Nat.succ) =
        (List.range (n + 1)).map (fun i => (oracle (page + 1 + i)).items) := by
      apply List.map_congr_left
      intro i _
      show (oracle (page + Nat.succ i)).items = (oracle (page + 1 + i)).items
      rw [show page + Nat.succ i = page + 1 + i by omega]
    simp only [Prod.mk.injEq]
    refine ⟨?_, ?_⟩
    · conv_rhs => rw [List.range_succ_eq_map, List.map_cons, List.map_map]
      rw [hmap]
      simp [List.append_assoc]
    · rw [show (n + 1 + 1) = (n + 1) + 1 from rfl, List.range'_succ page (n + 1) 1]

theorem fetchPages_runFail {α : Type} (oracle : Nat → PageResponse α) :
    ∀ (n fuel page : Nat) (acc : List α), n < fuel →
      (∀ i, i < n → (oracle (page + i)).status = 200 ∧
        (oracle (page + i)).items.length = 100) →
      (oracle (page + n)).status ≠ 200 →
      fetchPages oracle fuel page acc =
        (acc ++ ((List.range n).map (fun i => (oracle (page + i)).items)).flatten,
         List.range' page (n + 1)) := by
  intro n
  induction n with
  | zero =>
    intro fuel page acc hfuel _ hfail
    obtain ⟨f, rfl⟩ : ∃ f, fuel = f + 1 := ⟨fuel - 1, by omega⟩
    rw [fetchPages_fail oracle f page acc (by simpa using hfail)]
    simp [List.range'_succ]
  | succ n ih =>
    intro fuel page acc hfuel hfull hfail
    obtain ⟨f, rfl⟩ : ∃ f, fuel = f + 1 := ⟨fuel - 1, by omega⟩
    have h0 := hfull 0 (by omega)
    simp only [Nat.add_zero] at h0
    rw [fetchPages_full oracle f page acc h0.1 h0.2]
    have hshift : ∀ i, i < n → (oracle (page + 1 + i)).status = 200 ∧
        (oracle (page + 1 + i)).items.length = 100 := by
      intro i hi
      have := hfull (i + 1) (by omega)
      rwa [show page + (i + 1) = page + 1 + i by omega] at this
    have hl : (oracle (page + 1 + n)).status ≠ 200 := by
      rwa [show page + 1 + n = page + (n + 1) by omega]
    rw [ih f (page + 1) (acc ++ (oracle page).items) (by omega) hshift hl]
    have hmap : (List.range n).map ((fun i => (oracle (page + i)).items) ∘ Nat.succ) =
        (List.range n).map (fun i => (oracle (page + 1 + i)).items) := by
      apply List.map_congr_left
      intro i _
      show (oracle (page + Nat.succ i)).items = (oracle (page + 1 + i)).items
      rw [show page + Nat.succ i = page + 1 + i by omega]
    simp only [Prod.mk.injEq]
    refine ⟨?_, ?_⟩
    · conv_rhs => rw [List.range_succ_eq_map, List.map_cons, List.map_map]
      rw [hmap]
      simp [List.append_assoc]
    · rw [show (n + 1 + 1) = (n + 1) + 1 from rfl, List.range'_succ page (n + 1) 1]

/-- C2: when pages `1..n` are successful full pages (100 items) and page
`n+1` is successful but short, `get_commits` returns the concatenation of the
item arrays of pages `1..n+1`, requests exactly the strictly increasing,
duplicate-free page list `[1, ..., n+1]`, and on the 3-page fixture
(100, 100, 37 items) returns exactly 237 items with three requests. -/
theorem c2_pagination (α : Type) (oracle : Nat → PageResponse α) (n fuel : Nat)
    (hfull : ∀ i, i < n → (oracle (1 + i)).status = 200 ∧
      (oracle (1 + i)).items.length = 100)
    (hlast : (oracle (1 + n)).status = 200)
    (hshort : (oracle (1 + n)).items.length < 100)
    (hfuel : n < fuel) :
    ((get_commits oracle fuel).1 =
        ((List.range (n + 1)).map (fun i => (oracle (1 + i)).items)).flatten ∧
      (get_commits oracle fuel).2 = List.range' 1 (n + 1) ∧
      List.Pairwise (· < ·) (get_commits oracle fuel).2 ∧
      (get_commits oracle fuel).2.Nodup) ∧
    ((get_commits pageFixture 4).1.length = 237 ∧
      (get_commits pageFixture 4).2 = [1, 2, 3]) := by
  have h := fetchPages_run oracle n fuel 1 [] hfuel hfull hlast hshort
  have hg : get_commits oracle fuel =
      (((List.range (n + 1)).map (fun i => (oracle (1 + i)).items)).flatten,
        List.range' 1 (n + 1)) := by
    rw [get_commits, h]
    simp
  refine ⟨⟨?_, ?_, ?_, ?_⟩, ?_, ?_⟩
  · rw [hg]
  · rw [hg]
  · rw [hg]
    exact List.pairwise_lt_range' 1 (n + 1)
  · rw [hg]
    exact List.nodup_range' 1 (n + 1)
  · rfl
  · rfl

/-- Witness for C2: the general pagination theorem instantiated on the
3-page fixture (n = 2 full pages before the short page, fuel 4). -/
theorem c2_pagination_witness :
    (get_commits pageFixture 4).1 =
      ((List.range 3).map (fun i => (pageFixture (1 + i)).items)).flatten ∧
    (get_commits pageFixture 4).2 = List.range' 1 3 := by
  have h := c2_pagination Nat pageFixture 2 4
    (by
      intro i hi
      interval_cases i
      · exact ⟨rfl, rfl⟩
      · exact ⟨rfl, rfl⟩)
    rfl (by decide) (by omega)
  exact ⟨h.1.1, h.1.2.1⟩

/-- C7: if pages `1..n` succeed as full pages and page `n+1` returns a
non-success status, `get_commits` returns exactly the items accumulated from
the `n` successful pages (no exception is modelled: the function is total),
requests `[1, ..., n+1]`, and requests the failing page exactly once (no
retry). -/
theorem c7_partial_failure (α : Type) (oracle : Nat → PageResponse α) (n fuel : Nat)
    (hfull : ∀ i, i < n → (oracle (1 + i)).status = 200 ∧
      (oracle (1 + i)).items.length = 100)
    (hfail : (oracle (1 + n)).status ≠ 200)
    (hfuel : n < fuel) :
    (get_commits oracle fuel).1 =
      ((List.range n).map (fun i => (oracle (1 + i)).items)).flatten ∧
    (get_commits oracle fuel).2 = List.range' 1 (n + 1) ∧
    (get_commits oracle fuel).2.count (1 + n) = 1 := by
  have h := fetchPages_runFail oracle n fuel 1 [] hfuel hfull hfail
  have hg : get_commits oracle fuel =
      (((List.range n).map (fun i => (oracle (1 + i)).items)).flatten,
        List.range' 1 (n + 1)) := by
    rw [get_commits, h]
    simp
  refine ⟨?_, ?_, ?_⟩
  · rw [hg]
  · rw [hg]
  · rw [hg]
    apply List.count_eq_one_of_mem (List.nodup_range' 1 (n + 1))
    have : 1 ≤ 1 + n ∧ 1 + n < 1 + (n + 1) := ⟨by omega, by omega⟩
    simpa [List.mem_range'_1] using this

/-- Witness for C7: first page full and successful, second page fails with
status 403; the 100 items of page 1 are kept and page 2 is requested once. -/
theorem c7_partial_failure_witness :
    (get_commits pageFixtureFail 3).1 =
      ((List.range 1).map (fun i => (pageFixtureFail (1 + i)).items)).flatten ∧
    (get_commits pageFixtureFail 3).2 = List.range' 1 2 ∧
    (get_commits pageFixtureFail 3).2.count 2 = 1 := by
  have h := c7_partial_failure Nat pageFixtureFail 1 3
    (by
      intro i hi
      interval_cases i
      exact ⟨rfl, rfl⟩)
    (by decide) (by omega)
  exact h

theorem insDescBy_perm {α : Type} (k : α → Nat) (x : α) :
    ∀ l : List α, (insDescBy k x l).Perm (x :: l) := by
  intro l
  induction l with
  | nil => rfl
  | cons y ys ih =>
    rw [insDescBy]
    by_cases hc : k x < k y
    · rw [if_pos hc]
      exact (ih.cons y).trans (List.Perm.swap x y ys)
    · rw [if_neg hc]

theorem sortDescBy_perm {α : Type} (k : α → Nat) (l : List α) :
    (sortDescBy k l).Perm l := by
  induction l with
  | nil => rfl
  | cons x xs ih =>
    rw [sortDescBy]
    exact (insDescBy_perm k x (sortDescBy k xs)).trans (ih.cons x)

theorem insDescBy_sorted {α : Type} (k : α → Nat) (x : α) (l : List α)
    (h : List.Sorted (fun a b => k b ≤ k a) l) :
    List.Sorted (fun a b => k b ≤ k a) (insDescBy k x l) := by
  induction l with
  | nil => simp [insDescBy]
  | cons y ys ih =>
    rw [List.sorted_cons] at h
    obtain ⟨hy, hys⟩ := h
    by_cases hc : k x < k y
    · rw [insDescBy, if_pos hc, List.sorted_cons]
      refine ⟨?_, ih hys⟩
      intro b hb
      rcases List.mem_cons.mp ((insDescBy_perm k x ys).mem_iff.mp hb) with rfl | hb'
      · omega
      · exact hy b hb'
    · rw [insDescBy, if_neg hc, List.sorted_cons]
      refine ⟨?_, List.sorted_cons.mpr ⟨hy, hys⟩⟩
      intro b hb
      rcases List.mem_cons.mp hb with rfl | hb'
      · omega
      · have := hy b hb'
        omega

theorem sortDescBy_sorted {α : Type} (k : α → Nat) (l : List α) :
    List.Sorted (fun a b => k b ≤ k a) (sortDescBy k l) := by
  induction l with
  | nil => simp [sortDescBy]
  | cons x xs ih => exact insDescBy_sorted k x (sortDescBy k xs) ih

theorem sortDescBy_of_sorted {α : Type} (k : α → Nat) (l : List α)
    (h : List.Sorted (fun a b => k b ≤ k a) l) : sortDescBy k l = l := by
  induction l with
  | nil => rfl
  | cons x xs ih =>
    rw [List.sorted_cons] at h
    obtain ⟨hx, hxs⟩ := h
    rw [sortDescBy, ih hxs]
    cases xs with
    | nil => rfl
    | cons y ys =>
      have hne : ¬ k x < k y := by
        have := hx y (by simp)
        omega
      rw [insDescBy, if_neg hne]

theorem sortDescBy_eq_of_perm {α : Type} (k : α → Nat) (l l' : List α)
    (hp : l'.Perm l) (hk : (l.map k).Nodup) :
    sortDescBy k l' = sortDescBy k l := by
  have hp1 : (sortDescBy k l').Perm l := (sortDescBy_perm k l').trans hp
  have hp2 : (sortDescBy k l).Perm l := sortDescBy_perm k l
  have hps : (sortDescBy k l').Perm (sortDescBy k l) := hp1.trans hp2.symm
  have hstrict : ∀ m : List α, m.Perm l →
      List.Sorted (fun a b => k b ≤ k a) m → m.Pairwise (fun a b => k b < k a) := by
    intro m hm hs
    have hkm : (m.map k).Nodup := ((hm.map k).nodup_iff).mpr hk
    have hne : m.Pairwise (fun a b => k a ≠ k b) := (List.pairwise_map).mp hkm
    exact (hs.and hne).imp (fun hab => by omega)
  have hs1 := hstrict (sortDescBy k l') hp1 (sortDescBy_sorted k l')
  have hs2 := hstrict (sortDescBy k l) hp2 (sortDescBy_sorted k l)
  haveI : IsAntisymm α (fun a b => k b < k a) :=
    ⟨fun a b h1 h2 => absurd h2 (Nat.lt_asymm h1)⟩
  exact List.eq_of_perm_of_sorted hps hs1 hs2

/-- C5 counterexample: `generate_contributors_chart` sorts the report's own
contributors list in place (`contributors.sort(...)`), so the report document
after running it differs from the input report. -/
theorem c5_counterexample :
    (generate_contributors_chart reportA).1 ≠ reportA ∧
    (generate_contributors_chart reportA).1.contributors = [⟨"b", 5⟩, ⟨"a", 1⟩] := by
  decide

/-- C5 amended: the time-series, file-types and author-ranking derivations
leave the report unchanged; the contributor derivation changes only the
contributors list, replacing it in place by its descending sort — a
permutation of the original list — and produces its series from that. -/
theorem c5_amended_purity (r : Report) :
    (generate_commit_frequency_chart r).1 = r ∧
    (generate_file_types_chart r).1 = r ∧
    (generate_authors_activity_chart r).1 = r ∧
    (generate_contributors_chart r).1 =
      { r with contributors := sortContribDesc r.contributors } ∧
    (generate_contributors_chart r).1.contributors.Perm r.contributors := by
  refine ⟨rfl, rfl, rfl, rfl, ?_⟩
  show (sortContribDesc r.contributors).Perm r.contributors
  exact sortDescBy_perm _ _

/-- C6 counterexample: for a 15-contributor list with tied contribution
counts, sorting a shuffle (here: the reversal) and truncating to 10 does not
yield the same top-10 as sorting the original list and truncating. -/
theorem c6_counterexample :
    (tiedContribs.reverse).Perm tiedContribs ∧
    (sortContribDesc tiedContribs.reverse).take 10 ≠
      (sortContribDesc tiedContribs).take 10 := by
  exact ⟨List.reverse_perm tiedContribs, by decide⟩

/-- C6 amended: the contributor ranking sorts descending by contributions and
takes the first 10; re-sorting an already-descending list yields the same
list (idempotence), and when the contribution counts are pairwise distinct,
sorting any permutation and truncating to 10 yields the same top-10 as
sorting the original list and truncating. -/
theorem c6_ranking_amended :
    (∀ l : List Contributor,
      List.Sorted (fun a b => b.contributions ≤ a.contributions) l →
        sortContribDesc l = l) ∧
    (∀ l l' : List Contributor, l'.Perm l →
      (l.map Contributor.contributions).Nodup →
        (sortContribDesc l').take 10 = (sortContribDesc l).take 10) ∧
    (∀ r : Report, (generate_contributors_chart r).2 =
      ((sortContribDesc r.contributors).take 10).map
        (fun c => (c.login, c.contributions))) := by
  refine ⟨?_, ?_, ?_⟩
  · intro l h
    exact sortDescBy_of_sorted _ l h
  · intro l l' hp hk
    rw [sortContribDesc, sortContribDesc,
      sortDescBy_eq_of_perm (fun c => c.contributions) l l' hp hk]
  · intro r
    rfl

/-- Witness for C6 amended at concrete inputs: a sorted two-element list is
fixed by the sort, and a swap of a duplicate-free list keeps the top-10. -/
theorem c6_ranking_amended_witness :
    sortContribDesc [⟨"x", 5⟩, ⟨"y", 3⟩] = [⟨"x", 5⟩, ⟨"y", 3⟩] ∧
    (sortContribDesc [⟨"y", 3⟩, ⟨"x", 5⟩]).take 10 =
      (sortContribDesc [⟨"x", 5⟩, ⟨"y", 3⟩]).take 10 := by
  have h := c6_ranking_amended
  refine ⟨h.1 _ ?_, h.2.1 _ _ (List.Perm.swap _ _ []) ?_⟩
  · simp [List.sorted_cons]
  · simp

theorem dinsert_of_not_mem (m : List (String × Nat)) (k : String) (v : Nat)
    (h : k ∉ m.map Prod.fst) : dinsert m k v = m ++ [(k, v)] := by
  induction m with
  | nil => rfl
  | cons p rest ih =>
    simp only [List.map_cons, List.mem_cons] at h
    push_neg at h
    rw [dinsert, if_neg (fun he => h.1 he.symm), ih h.2]
    rfl

theorem groupFold (total : Nat) :
    ∀ (ft acc : List (String × Nat)) (o : Nat),
      (∀ p ∈ ft, p.1 ∉ acc.map Prod.fst) → (ft.map Prod.fst).Nodup →
      ft.foldl (groupStep total) (acc, o) =
        (acc ++ ft.filter (keepThreshold total),
         o + sumVals (ft.filter (fun p => ! keepThreshold total p))) := by
  intro ft
  induction ft with
  | nil =>
    intro acc o _ _
    simp [sumVals]
  | cons p rest ih =>
    intro acc o hfresh hnodup
    simp only [List.map_cons, List.nodup_cons] at hnodup
    obtain ⟨hp1, hnodup'⟩ := hnodup
    by_cases hk : 2 * total ≤ 100 * p.2
    · have hstep : groupStep total (acc, o) p = (acc ++ [p], o) := by
        rw [groupStep, if_pos hk, dinsert_of_not_mem acc p.1 p.2 (hfresh p (by simp))]
      rw [List.foldl_cons, hstep,
        ih (acc ++ [p]) o
          (by
            intro q hq
            simp only [List.map_append, List.map_cons, List.map_nil, List.mem_append,
              List.mem_singleton]
            push_neg
            refine ⟨hfresh q (by simp [hq]), ?_⟩
            intro he
            exact hp1 (he ▸ List.mem_map_of_mem Prod.fst hq))
          hnodup']
      have hkeep : keepThreshold total p = true := by
        simp [keepThreshold, hk]
      rw [List.filter_cons, if_pos (by simp [hkeep])]
      simp only [Prod.mk.injEq]
      refine ⟨?_, ?_⟩
      · simp [List.append_assoc]
      · rw [List.filter_cons, if_neg (by simp [hkeep])]
    · have hstep : groupStep total (acc, o) p = (acc, o + p.2) := by
        rw [groupStep, if_neg hk]
      rw [List.foldl_cons, hstep,
        ih acc (o + p.2) (fun q hq => hfresh q (by simp [hq])) hnodup']
      have hkeep : keepThreshold total p = false := by
        simp [keepThreshold, hk]
      rw [List.filter_cons, if_neg (by simp [hkeep])]
      simp only [Prod.mk.injEq]
      refine ⟨trivial, ?_⟩
      rw [List.filter_cons, if_pos (by simp [hkeep])]
      simp [sumVals]
      omega

/-- C3: with `total = sum(counts)` and threshold 2% of total, the grouping of
`generate_file_types_chart` keeps every category with `count >= threshold` in
its own slot in report insertion order, merges every category strictly below
the threshold into `"Other"`, and emits `"Other"` iff the merged count is
positive (exact-rational statement of `count >= total * 0.02` as
`2 * total <= 100 * count`); moreover on `{a:60, b:30, c:5, d:5}` all four
categories stay separate with no `"Other"`, and on
`{a:60, b:30, c:5, d:4, e:1}` the count-1 category is merged into `"Other"`. -/
theorem c3_file_types_grouping (ft : List (String × Nat))
    (hnodup : (ft.map Prod.fst).Nodup)
    (hother : "Other" ∉ ft.map Prod.fst) :
    (groupedTypes ft =
      ft.filter (keepThreshold (sumVals ft)) ++
        (if 0 < sumVals (ft.filter (fun p => ! keepThreshold (sumVals ft) p)) then
          [("Other", sumVals (ft.filter (fun p => ! keepThreshold (sumVals ft) p)))]
        else [])) ∧
    groupedTypes [("a", 60), ("b", 30), ("c", 5), ("d", 5)] =
      [("a", 60), ("b", 30), ("c", 5), ("d", 5)] ∧
    groupedTypes [("a", 60), ("b", 30), ("c", 5), ("d", 4), ("e", 1)] =
      [("a", 60), ("b", 30), ("c", 5), ("d", 4), ("Other", 1)] := by
  refine ⟨?_, by decide, by decide⟩
  have hfold := groupFold (sumVals ft) ft [] 0 (by simp) hnodup
  simp only [groupedTypes]
  rw [hfold]
  simp only [List.nil_append, Nat.zero_add]
  by_cases hpos : 0 < sumVals (ft.filter (fun p => ! keepThreshold (sumVals ft) p))
  · rw [if_pos hpos, if_pos hpos]
    apply dinsert_of_not_mem
    intro hmem
    apply hother
    simp only [List.mem_map] at hmem ⊢
    obtain ⟨q, hq, hq2⟩ := hmem
    exact ⟨q, List.mem_of_mem_filter hq, hq2⟩
  · rw [if_neg hpos, if_neg hpos]
    simp

/-- Witness for C3 at a concrete mapping with distinct keys and no `"Other"`
key. -/
theorem c3_file_types_grouping_witness :
    groupedTypes [("py", 9), ("md", 1)] =
      ([("py", 9), ("md", 1)] : List (String × Nat)).filter
          (keepThreshold (sumVals [("py", 9), ("md", 1)])) ++
        (if 0 < sumVals (([("py", 9), ("md", 1)] : List (String × Nat)).filter
            (fun p => ! keepThreshold (sumVals [("py", 9), ("md", 1)]) p)) then
          [("Other", sumVals (([("py", 9), ("md", 1)] : List (String × Nat)).filter
            (fun p => ! keepThreshold (sumVals [("py", 9), ("md", 1)]) p)))]
        else []) := by
  exact (c3_file_types_grouping [("py", 9), ("md", 1)] (by decide) (by decide)).1

theorem takeWhile_of_all {α : Type} (p : α → Bool) :
    ∀ l : List α, (∀ c ∈ l, p c = true) → l.takeWhile p = l := by
  intro l
  induction l with
  | nil => simp
  | cons x xs ih =>
    intro h
    rw [List.takeWhile_cons, if_pos (h x (by simp)), ih (fun c hc => h c (by simp [hc]))]

theorem takeWhile_append_cons {α : Type} (p : α → Bool) (y : α) (hy : p y = false) :
    ∀ (l1 l2 : List α), (∀ c ∈ l1, p c = true) →
      ((l1 ++ y :: l2).takeWhile p) = l1 := by
  intro l1
  induction l1 with
  | nil =>
    intro l2 _
    simp [List.takeWhile_cons, hy]
  | cons x xs ih =>
    intro l2 h
    rw [List.cons_append, List.takeWhile_cons, if_pos (h x (by simp)),
      ih l2 (fun c hc => h c (by simp [hc]))]

theorem dropWhile_append_cons {α : Type} (p : α → Bool) (y : α) (hy : p y = false) :
    ∀ (l1 l2 : List α), (∀ c ∈ l1, p c = true) →
      ((l1 ++ y :: l2).dropWhile p) = y :: l2 := by
  intro l1
  induction l1 with
  | nil =>
    intro l2 _
    simp [List.dropWhile_cons, hy]
  | cons x xs ih =>
    intro l2 h
    rw [List.cons_append, List.dropWhile_cons, if_pos (h x (by simp)),
      ih l2 (fun c hc => h c (by simp [hc]))]

theorem all_reverse_ne (x : Char) (l : List Char) (h : x ∉ l) :
    ∀ c ∈ l.reverse, (fun c => decide (c ≠ x)) c = true := by
  intro c hc
  simp only [decide_eq_true_eq]
  intro he
  exact h (he ▸ List.mem_reverse.mp hc)

theorem lastComp_no_slash (b : List Char) (h : '/' ∉ b) : lastComp b = b := by
  rw [lastComp, takeWhile_of_all _ b.reverse (all_reverse_ne '/' b h),
    List.reverse_reverse]

theorem lastComp_append (d b : List Char) (h : '/' ∉ b) :
    lastComp (d ++ '/' :: b) = b := by
  have hrev : (d ++ '/' :: b).reverse = b.reverse ++ '/' :: d.reverse := by
    simp
  rw [lastComp, hrev,
    takeWhile_append_cons _ '/' (by simp) b.reverse d.reverse (all_reverse_ne '/' b h),
    List.reverse_reverse]

theorem afterLastDot_split (A B : List Char) (hB : '.' ∉ B) :
    afterLastDot (A ++ '.' :: B) = B := by
  have hrev : (A ++ '.' :: B).reverse = B.reverse ++ '.' :: A.reverse := by
    simp
  rw [afterLastDot, hrev,
    takeWhile_append_cons _ '.' (by simp) B.reverse A.reverse (all_reverse_ne '.' B hB),
    List.reverse_reverse]

theorem beforeLastDot_split (A B : List Char) (hB : '.' ∉ B) :
    beforeLastDot (A ++ '.' :: B) = A := by
  have hrev : (A ++ '.' :: B).reverse = B.reverse ++ '.' :: A.reverse := by
    simp
  rw [beforeLastDot, hrev,
    dropWhile_append_cons _ '.' (by simp) B.reverse A.reverse (all_reverse_ne '.' B hB),
    List.drop_one, List.tail_cons, List.reverse_reverse]

theorem splitextExt_split (A B : List Char) (hB : '.' ∉ B)
    (hA : ∃ c ∈ A, c ≠ '.') : splitextExt (A ++ '.' :: B) = '.' :: B := by
  rw [splitextExt, if_pos, afterLastDot_split A B hB]
  refine ⟨by simp, ?_⟩
  rw [beforeLastDot_split A B hB]
  simp only [List.any_eq_true]
  obtain ⟨c, hc, hne⟩ := hA
  exact ⟨c, hc, by simp [hne]⟩

theorem splitextExt_dotfile (A B : List Char) (hB : '.' ∉ B)
    (hA : ∀ c ∈ A, c = '.') : splitextExt (A ++ '.' :: B) = [] := by
  rw [splitextExt, if_neg]
  rintro ⟨_, hany⟩
  rw [beforeLastDot_split A B hB] at hany
  simp only [List.any_eq_true] at hany
  obtain ⟨c, hc, hne⟩ := hany
  have hcc : c ≠ '.' := by simpa using hne
  exact hcc (hA c hc)

theorem splitextExt_no_dot (b : List Char) (h : '.' ∉ b) : splitextExt b = [] := by
  rw [splitextExt, if_neg]
  rintro ⟨hmem, _⟩
  exact h hmem

/-- C4 counterexample: for the dotfile path `".gitignore"` the code derives
`"no_extension"` (`os.path.splitext` gives dotfiles an empty extension),
while the claimed rule — lower-cased substring after the last dot of the
final component — yields `"gitignore"`. -/
theorem c4_counterexample :
    extToken ".gitignore" = "no_extension" ∧
    claimedExtOfC4 ".gitignore" = "gitignore" ∧
    extToken ".gitignore" ≠ claimedExtOfC4 ".gitignore" := by
  refine ⟨by decide, by decide, by decide⟩

/-- C4 amended: the derived token depends only on the path's final component;
it is the lower-cased substring after the component's last dot provided that
dot is preceded (within the component) by at least one non-dot character and
followed by at least one character; otherwise — no dot at all, a dotfile
whose only characters before the last dot are dots, or a trailing dot — the
token is `"no_extension"`.  `"src/main.rs"` yields `"rs"`, `"Makefile"`
yields `"no_extension"`, and entries whose type is not `"blob"` are excluded
from the extension counting regardless of path. -/
theorem c4_extension_amended :
    (∀ d b : List Char, '/' ∉ b →
      extToken (String.mk (d ++ '/' :: b)) = extToken (String.mk b)) ∧
    (∀ b : List Char, '/' ∉ b → '.' ∉ b →
      extToken (String.mk b) = "no_extension") ∧
    (∀ A B : List Char, '/' ∉ A → '/' ∉ B → '.' ∉ B → B ≠ [] →
      (∃ c ∈ A, c ≠ '.') →
      extToken (String.mk (A ++ '.' :: B)) = String.mk (B.map Char.toLower)) ∧
    (∀ A B : List Char, '/' ∉ A → '/' ∉ B → '.' ∉ B →
      (∀ c ∈ A, c = '.') →
      extToken (String.mk (A ++ '.' :: B)) = "no_extension") ∧
    (∀ A : List Char, '/' ∉ A → (∃ c ∈ A, c ≠ '.') →
      extToken (String.mk (A ++ ['.'])) = "no_extension") ∧
    (extToken "src/main.rs" = "rs" ∧ extToken "Makefile" = "no_extension") ∧
    (∀ (e : TreeEntry) (tree : List TreeEntry), e.type ≠ "blob" →
      extensionsOf (e :: tree) = extensionsOf tree) := by
  refine ⟨?_, ?_, ?_, ?_, ?_, ⟨by decide, by decide⟩, ?_⟩
  · intro d b hb
    show extCore (lastComp (d ++ '/' :: b)) = extCore (lastComp b)
    rw [lastComp_append d b hb, lastComp_no_slash b hb]
  · intro b hslash hdot
    show extCore (lastComp b) = "no_extension"
    rw [lastComp_no_slash b hslash, extCore, splitextExt_no_dot b hdot]
    rfl
  · intro A B hA hB hBdot hBne hex
    have hs : '/' ∉ A ++ '.' :: B := by
      intro hmem
      rcases List.mem_append.mp hmem with h | h
      · exact hA h
      · rcases List.mem_cons.mp h with h | h
        · exact absurd h.symm (by decide)
        · exact hB h
    show extCore (lastComp (A ++ '.' :: B)) = String.mk (B.map Char.toLower)
    rw [lastComp_no_slash _ hs, extCore, splitextExt_split A B hBdot hex]
    have hne : ((B.map Char.toLower)).isEmpty = false := by
      cases B with
      | nil => exact absurd rfl hBne
      | cons x xs => rfl
    simp only [List.drop_one, List.tail_cons]
    rw [if_neg (by simp [hne])]
  · intro A B hA hB hBdot hall
    have hs : '/' ∉ A ++ '.' :: B := by
      intro hmem
      rcases List.mem_append.mp hmem with h | h
      · exact hA h
      · rcases List.mem_cons.mp h with h | h
        · exact absurd h.symm (by decide)
        · exact hB h
    show extCore (lastComp (A ++ '.' :: B)) = "no_extension"
    rw [lastComp_no_slash _ hs, extCore, splitextExt_dotfile A B hBdot hall]
    rfl
  · intro A hA hex
    have hs : '/' ∉ A ++ ['.'] := by
      intro hmem
      rcases List.mem_append.mp hmem with h | h
      · exact hA h
      · simp at h
    show extCore (lastComp (A ++ ['.'])) = "no_extension"
    rw [lastComp_no_slash _ hs, extCore,
      splitextExt_split A [] (by simp) hex]
    rfl
  · intro e tree he
    simp only [extensionsOf, blobPaths, List.filter_cons]
    rw [if_neg (by simp [he])]

/-- Witness for C4 amended at concrete component lists:
`"src" / "main.rs"` reduces to the bare component, and `"main" ++ "." ++
"rs"` yields the lower-cased `"rs"`. -/
theorem c4_extension_amended_witness :
    extToken (String.mk (['s', 'r', 'c'] ++ '/' :: ['m', 'a', 'i', 'n', '.', 'r', 's'])) =
      extToken (String.mk ['m', 'a', 'i', 'n', '.', 'r', 's']) ∧
    extToken (String.mk (['m', 'a', 'i', 'n'] ++ '.' :: ['r', 's'])) =
      String.mk (['r', 's'].map Char.toLower) := by
  have h := c4_extension_amended
  refine ⟨h.1 ['s', 'r', 'c'] ['m', 'a', 'i', 'n', '.', 'r', 's'] (by decide),
    h.2.2.1 ['m', 'a', 'i', 'n'] ['r', 's'] (by decide) (by decide) (by decide)
      (by decide) ⟨'m', by decide, by decide⟩⟩

/-- C8: if the tree fetch or the contributor fetch receives a non-success
status, it returns an empty counter (resp. empty list) instead of raising,
and the corresponding report fields are empty. -/
theorem c8_empty_on_failure (tr : TreeResponse) (cr : ContribResponse)
    (repo : String) (days : Nat) (commits : List Commit)
    (ht : tr.status ≠ 200) (hc : cr.status ≠ 200) :
    get_file_types tr = [] ∧ get_contributors cr = [] ∧
    (generate_report repo days commits (get_file_types tr)
      (get_contributors cr)).fileTypes = [] ∧
    (generate_report repo days commits (get_file_types tr)
      (get_contributors cr)).contributors = [] := by
  have h1 : get_file_types tr = [] := by rw [get_file_types, if_pos ht]
  have h2 : get_contributors cr = [] := by rw [get_contributors, if_pos hc]
  exact ⟨h1, h2, by simp [generate_report, h1], by simp [generate_report, h2]⟩

/-- Witness for C8: a 404 on both endpoints yields empty report sections. -/
theorem c8_empty_on_failure_witness :
    get_file_types ⟨404, [⟨"src/main.rs", "blob"⟩]⟩ = [] ∧
    get_contributors ⟨404, [⟨"alice", 5⟩]⟩ = [] := by
  have h := c8_empty_on_failure ⟨404, [⟨"src/main.rs", "blob"⟩]⟩
    ⟨404, [⟨"alice", 5⟩]⟩ "o/r" 30 [] (by decide) (by decide)
  exact ⟨h.1, h.2.1⟩
